import Mathlib

/-!
Shallow embedding of the core of the redwood-filter web proxy
(src/url.go, src/transport.go, src/log.go), together with proofs about the
URL rule-matching engine and the resilient transport layer.

Strings are modelled as lists of characters (Go strings are byte/char
sequences; all inputs of interest here are ASCII).  External facilities
(the Go regexp package, punycode decoding, query unescaping) are modelled
as abstract parameters.  Repository code that is referenced by src/url.go
but whose file is not part of src/ (the Aho-Corasick phrase list and the
regexStrings literal extractor) is modelled from the spec, as marked in
the corresponding doc comments.
-/

namespace Redwood

abbrev Str := List Char

/-- ASCII fragment of Go's strings.ToLower on a single character: an
upper-case ASCII letter is shifted to lower case, any other character is
unchanged.  (Go's ToLower is full Unicode; the claims only involve
ASCII.) -/
def toLowerChar (c : Char) : Char :=
  if 65 ≤ c.toNat ∧ c.toNat ≤ 90 then Char.ofNat (c.toNat + 32) else c

/-- Model of Go's strings.ToLower. -/
def lowerStr (s : Str) : Str := s.map toLowerChar

/-- Decides whether a character is an ASCII digit (values 48-57). -/
def isDigitChar (c : Char) : Bool := 48 ≤ c.toNat && c.toNat ≤ 57

/-- Model of Go's strings.HasPrefix as a Boolean function on char lists. -/
def isPrefixB : Str → Str → Bool
  | [], _ => true
  | _ :: _, [] => false
  | a :: as, b :: bs => a == b && isPrefixB as bs

/-- Model of Go's strings.Contains: does p occur as a contiguous substring
of s? -/
def containsSub (p : Str) (s : Str) : Bool :=
  match s with
  | [] => isPrefixB p []
  | _ :: rest => isPrefixB p s || containsSub p rest

/-- Decides whether the character a occurs in s (Go's strings.Contains
for a single-character needle). -/
def containsChar (a : Char) : Str → Bool
  | [] => false
  | x :: xs => x == a || containsChar a xs

/-- Model of Go's strings.LastIndex for a single-character separator:
index of the last occurrence of c in s, if any. -/
def lastIndexOf (c : Char) : Str → Option Nat
  | [] => none
  | x :: xs =>
    match lastIndexOf c xs with
    | some i => some (i + 1)
    | none => if x = c then some 0 else none

/-- Model of Go's strings.Index for a single-character separator: index of
the first occurrence of c in s, if any. -/
def indexOfChar (c : Char) : Str → Option Nat
  | [] => none
  | x :: xs =>
    if x = c then some 0
    else
      match indexOfChar c xs with
      | some i => some (i + 1)
      | none => none

/-- Model of Go's strings.Split with a single-character separator. -/
def splitOnChar (c : Char) : Str → List Str
  | [] => [[]]
  | x :: xs =>
    match splitOnChar c xs with
    | [] => [[]]
    | g :: gs => if x = c then [] :: g :: gs else (x :: g) :: gs

/-- Model of Go's strings.Join with a single-character separator. -/
def joinWithChar (c : Char) : List Str → Str
  | [] => []
  | [g] => g
  | g :: gs => g ++ c :: joinWithChar c gs

/-- Rule kinds of the matcher (rules.go of the repository is not part of
src/; the kinds are exactly the ones URLMatcher.AddRule in src/url.go
dispatches on). -/
inductive ruleType
  | urlMatch
  | urlRegex
  | hostRegex
  | pathRegex
  | queryRegex
deriving DecidableEq

/-- A filtering rule: its kind and its pattern text.  This is the part of
the repository's rule record that src/url.go reads (r.t and r.content). -/
structure rule where
  t : ruleType
  content : Str
deriving DecidableEq

/-- A compiled regular expression, modelled abstractly by its matching
function (Go's regexp.Regexp.MatchString is a pure function of the
pattern and the text). -/
structure Regex where
  MatchString : Str → Bool

/-- A regexRule pairs a rule with its compiled pattern (src/url.go:13-16). -/
structure regexRule where
  rule : rule
  re : Regex

/-- The external regular-expression facility used by regexMap.addRule:
compile (Go's regexp.Compile, returning none on a parse error) and
regexStrings.

regexStrings is repository code that is not part of src/.  Modelled from
the spec: it extracts the minimal literal substrings the pattern
requires, returning none on extraction failure.  Its contract — every
extracted literal occurs in any text the compiled pattern matches — is
taken as a hypothesis where needed. -/
structure RegexEngine where
  compile : Str → Option Regex
  regexStrings : Str → Option (List Str)

/-- Modelled from the spec: the minLen method of the string set returned
by regexStrings (the length of its shortest member, 0 when empty). -/
def minLen : List Str → Nat
  | [] => 0
  | p :: rest => rest.foldl (fun m q => min m q.length) p.length

/-- A regexMap (src/url.go:21-24): the phrase list fed to the
Aho-Corasick scanner, and the rules bucketed by required literal.

The phraseList type is repository code not part of src/; modelled from
the spec as the list of registered phrases.  The Go rules field is a
map from string to slice with append semantics; it is modelled as the
list of (phrase, rule) registrations in order. -/
structure regexMap where
  stringList : List Str
  rules : List (Str × regexRule)

/-- Model of newRegexMap (src/url.go:26-31). -/
def newRegexMap : regexMap := ⟨[], []⟩

/-- The bucket of rules registered under phrase p (Go rm.rules[p]). -/
def bucket (rm : regexMap) (p : Str) : List regexRule :=
  (rm.rules.filter (fun e => e.1 == p)).map (·.2)

/-- Model of regexMap.findMatches (src/url.go:33-57).

The byte-at-a-time phrase scan is repository code not part of src/;
modelled from the spec: the scanner reports exactly the registered
phrases that occur as substrings of s, and the tried map makes each
reported phrase's bucket be evaluated once, so the net effect is to
evaluate each bucket whose phrase occurs in s.  Finally the rules with
no literal string component (bucket of the empty string) are always
evaluated.  The tally is a set of rules (Go map with all values 1). -/
def findMatches (rm : regexMap) (s : Str) (tally : Finset rule) : Finset rule :=
  let reported := rm.stringList.filter (fun p => containsSub p s)
  let hits := (reported.map (fun p => (bucket rm p).filter (fun r => r.re.MatchString s))).flatten
  let noLit := (bucket rm []).filter (fun r => r.re.MatchString s)
  tally ∪ (hits.map (·.rule)).toFinset ∪ (noLit.map (·.rule)).toFinset

/-- Model of regexMap.addRule (src/url.go:60-80): compile the pattern (a
compile failure drops the rule); extract its required literal strings
(failure, or a zero minimum length, files the rule in the bucket of the
empty string); otherwise add each literal to the phrase list and register
the rule under it. -/
def addRule (eng : RegexEngine) (rm : regexMap) (r : rule) : regexMap :=
  match eng.compile r.content with
  | none => rm
  | some re =>
    match eng.regexStrings r.content with
    | none => { rm with rules := rm.rules ++ [([], ⟨r, re⟩)] }
    | some ss =>
      if minLen ss = 0 then
        { rm with rules := rm.rules ++ [([], ⟨r, re⟩)] }
      else
        { stringList := rm.stringList ++ ss
          rules := rm.rules ++ ss.map (fun p => (p, ⟨r, re⟩)) }

/-- The regexRule for every registered rule whose pattern compiles
(the reference semantics the pruned scan is compared with). -/
def compiledRules (eng : RegexEngine) (rs : List rule) : List regexRule :=
  rs.filterMap (fun r => (eng.compile r.content).map (fun re => ⟨r, re⟩))

/-- The set of rules in l whose compiled pattern matches s: the result of
evaluating every regex in l individually against s. -/
def matchedSet (l : List regexRule) (s : Str) : Finset rule :=
  ((l.filter (fun r => r.re.MatchString s)).map (·.rule)).toFinset

/-- All rule registrations of a regexMap, in order (a rule registered
under several literals appears once per literal). -/
def allRules (rm : regexMap) : List regexRule := rm.rules.map (·.2)

/-- Invariant of regexMaps built by addRule: every rule registered under a
nonempty phrase has that phrase in the scanner's list, and the phrase is
required — it occurs in every text the rule's regex matches. -/
def goodMap (rm : regexMap) : Prop :=
  ∀ p rr, (p, rr) ∈ rm.rules → p ≠ [] →
    p ∈ rm.stringList ∧ ∀ s, rr.re.MatchString s = true → containsSub p s = true

/-- The URLMatcher (src/url.go:82-88): a literal fragment map plus the four
regex tiers.  The Go fragments map (string to rule, assignment overwrites)
is modelled as the list of assignments in order; lookupFrag takes the last
matching entry (last write wins). -/
structure URLMatcher where
  fragments : List (Str × rule)
  regexes : regexMap
  hostRegexes : regexMap
  pathRegexes : regexMap
  queryRegexes : regexMap

/-- Model of newURLMatcher (src/url.go:99-107). -/
def newURLMatcher : URLMatcher := ⟨[], newRegexMap, newRegexMap, newRegexMap, newRegexMap⟩

/-- Model of URLMatcher.AddRule (src/url.go:110-123): dispatch on the rule
kind into the fragment map or the matching regex tier. -/
def AddRule (eng : RegexEngine) (m : URLMatcher) (r : rule) : URLMatcher :=
  match r.t with
  | .urlMatch => { m with fragments := m.fragments ++ [(r.content, r)] }
  | .urlRegex => { m with regexes := addRule eng m.regexes r }
  | .hostRegex => { m with hostRegexes := addRule eng m.hostRegexes r }
  | .pathRegex => { m with pathRegexes := addRule eng m.pathRegexes r }
  | .queryRegex => { m with queryRegexes := addRule eng m.queryRegexes r }

/-- Lookup in the fragment map: the rule of the last assignment whose key
equals k, mirroring Go map assignment semantics. -/
def lookupFrag (frs : List (Str × rule)) (k : Str) : Option rule :=
  (frs.reverse.find? (fun e => e.1 == k)).map (·.2)

/-- External facilities used by MatchingRules: punycode decoding (the
go-idn library, returning none on a decode error) and percent-decoding
of query strings (Go net/url.QueryUnescape, returning none on a decode
error).  Both are outside the repository and modelled abstractly. -/
structure Ext where
  punycodeDecode : Str → Option Str
  queryUnescape : Str → Option Str

/-- Port stripping of MatchingRules (src/url.go:133-138): drop a trailing
colon-separated suffix, unless a closing bracket occurs at or after the
last colon (so a bracketed IPv6 literal without a port is untouched). -/
def stripPort (host : Str) : Str :=
  match lastIndexOf ':' host with
  | none => host
  | some colon => if containsChar ']' (host.drop colon) then host else host.take colon

/-- Internationalized-domain-name handling of MatchingRules
(src/url.go:141-153): decode each label that starts with xn-- via
punycode (a decode failure leaves the label unchanged), rejoin, and
lower-case. -/
def idnRelabel (ext : Ext) (host : Str) : Str :=
  let labels := splitOnChar '.' host
  let labels := labels.map (fun puny =>
    if isPrefixB ("xn--".data) puny then
      match ext.punycodeDecode (puny.drop 4) with
      | some uni => uni
      | none => puny
    else puny)
  lowerStr (joinWithChar '.' labels)

/-- Inner loop of the fragment walk (src/url.go:186-195), implemented by
structural recursion on a fuel bound: every iteration strictly shortens
s2, so fuel equal to the initial length of s2 (supplied by fragInner)
makes the out-of-fuel branch unreachable. -/
def fragInnerGo (frs : List (Str × rule)) : Nat → Str → Finset rule → Finset rule
  | fuel, s2, acc =>
    let acc1 := match lookupFrag frs s2 with
      | some r => insert r acc
      | none => acc
    match lastIndexOf '/' (s2.take (s2.length - 1)), fuel with
    | none, _ => acc1
    | some _, 0 => acc1
    | some slash, fuel + 1 => fragInnerGo frs fuel (s2.take (slash + 1)) acc1

/-- Inner loop of the fragment walk (src/url.go:186-195): test s2 against
the fragment map, then trim s2 back to (and including) the last slash
that is not its final character; stop when there is no such slash.
(When s2 is empty Go's s2[:len(s2)-1] would panic; the model's take of
length minus one is then empty and the walk just stops — the claims never
reach that case.) -/
def fragInner (frs : List (Str × rule)) (s2 : Str) (acc : Finset rule) : Finset rule :=
  fragInnerGo frs s2.length s2 acc

/-- Outer loop of the fragment walk (src/url.go:182-205), implemented by
structural recursion on a fuel bound: every label strip strictly shortens
s, so fuel equal to the initial length of s (supplied by fragWalk) makes
the out-of-fuel branch unreachable. -/
def fragWalkGo (frs : List (Str × rule)) : Nat → Str → Str → Finset rule → Finset rule
  | fuel, s, path, acc =>
    let acc1 := fragInner frs (s ++ path) acc
    let acc2 := match lookupFrag frs s with
      | some r => insert r acc1
      | none => acc1
    match indexOfChar '.' s, fuel with
    | none, _ => acc2
    | some _, 0 => acc2
    | some dot, fuel + 1 => fragWalkGo frs fuel (s.drop (dot + 1)) path acc2

/-- Outer loop of the fragment walk (src/url.go:182-205): for the current
host suffix s, run the inner walk on s plus the path, test s itself, then
strip the leftmost DNS label (up to and including the first dot) and
repeat until no dot remains. -/
def fragWalk (frs : List (Str × rule)) (s : Str) (path : Str) (acc : Finset rule) : Finset rule :=
  fragWalkGo frs s.length s path acc

/-- A parsed URL, holding the fields of Go's url.URL that MatchingRules
reads. -/
structure URL where
  scheme : Str
  host : Str
  path : Str
  rawQuery : Str

/-- Body of MatchingRules (src/url.go:128-207) after the host has been
lower-cased and its port stripped: IDN-decode the host if needed, run the
four regex tiers on host, lower-cased path, decoded query, and the
reassembled URL string, then run the fragment walk.  The result set
starts empty and every stage only adds rules (Go mutates one tally map
through all stages). -/
def matchAfterStrip (ext : Ext) (m : URLMatcher) (host0 : Str) (scheme path0 rawQuery : Str) : Finset rule :=
  let host := if containsSub "xn--".data host0 then idnRelabel ext host0 else host0
  let urlString : Str := if scheme ≠ [] then lowerStr scheme ++ (":".data) else []
  let step1 :=
    if host ≠ [] then
      (urlString ++ "//".data ++ host, findMatches m.hostRegexes host (∅ : Finset rule))
    else (urlString, (∅ : Finset rule))
  let urlString := step1.1
  let path := lowerStr path0
  let result2 := findMatches m.pathRegexes path step1.2
  let urlString := urlString ++ path
  let query := lowerStr rawQuery
  let step3 :=
    if query ≠ [] then
      let query := match ext.queryUnescape query with
        | some q => q.map (fun c => if c = ' ' then '+' else c)
        | none => query
      (urlString ++ "?".data ++ query, findMatches m.queryRegexes query result2)
    else (urlString, result2)
  let result4 := findMatches m.regexes step3.1 step3.2
  fragWalk m.fragments host path result4

/-- Model of URLMatcher.MatchingRules (src/url.go:128-207): lower-case the
host, strip a trailing port, and hand off to the rest of the pipeline. -/
def MatchingRules (ext : Ext) (m : URLMatcher) (u : URL) : Finset rule :=
  matchAfterStrip ext m (stripPort (lowerStr u.host)) u.scheme u.path u.rawQuery

/-- Error values of the transport layer.  Go errors are modelled as an
inductive covering the errors that the code inspects (the context
cancellation error, the redial-worthy errors matched by
shouldRedialForError, the error built by connTransport.redial when no
redial function is provided) plus an indexed catch-all for every other
error. -/
inductive GoErr
  | ctxCanceled
  | eof
  | unexpectedEOF
  | epipe
  | noRenegotiation
  | noRedialFunc
  | other (n : Nat)
deriving DecidableEq

/-- Model of shouldRedialForError (src/transport.go:122-135): io.EOF,
io.ErrUnexpectedEOF, syscall.EPIPE and the TLS no-renegotiation error
(matched in Go by an error-message substring, here by a constructor) are
redial-worthy; everything else is not. -/
def shouldRedialForError : GoErr → Bool
  | .eof => true
  | .unexpectedEOF => true
  | .epipe => true
  | .noRenegotiation => true
  | _ => false

/-- The body field of a Go http.Request as requestIsReplayable inspects
it: nil, http.NoBody, or any other reader. -/
inductive BodyKind
  | bodyNil
  | noBody
  | otherBody
deriving DecidableEq

/-- The fields of a Go http.Request read by the transport code.  Headers
are modelled as a list of (canonical key, value) lines; Header.Get
returns the first value for the key. -/
structure Request where
  method : Str
  bodyK : BodyKind
  hasGetBody : Bool
  header : List (Str × Str)
deriving DecidableEq

/-- Model of Go's http.Header.Get: the first value stored under the key,
or the empty string when there is none. -/
def headerGet (hs : List (Str × Str)) (k : Str) : Str :=
  match hs.find? (fun e => e.1 == k) with
  | some e => e.2
  | none => []

/-- Model of requestIsReplayable (src/transport.go:139-153): if the body
is nil, http.NoBody, or GetBody is present, then a GET/HEAD/OPTIONS/TRACE
method makes the request replayable, as does a nonempty Idempotency-Key
or X-Idempotency-Key header value; otherwise the request is not
replayable. -/
def requestIsReplayable (r : Request) : Bool :=
  if r.bodyK = .bodyNil || r.bodyK = .noBody || r.hasGetBody then
    if r.method == "GET".data || r.method == "HEAD".data
        || r.method == "OPTIONS".data || r.method == "TRACE".data then
      true
    else if headerGet r.header "Idempotency-Key".data != []
        || headerGet r.header "X-Idempotency-Key".data != [] then
      true
    else false
  else false

/-- Whether any header line with the given key is present (regardless of
its value).  Used to state the spec's wording of the replayability rule. -/
def headerHasKey (hs : List (Str × Str)) (k : Str) : Bool :=
  hs.any (fun e => e.1 == k)

/-- The replayability rule in the spec's words (claim C7): the body is
empty or reproducible (nil, NoBody, or a GetBody function is present),
and either the method is one of the side-effect-free methods GET, HEAD,
OPTIONS, TRACE, or an explicit idempotency marker header (Idempotency-Key
or X-Idempotency-Key) is present. -/
def replayableSpec (r : Request) : Bool :=
  (r.bodyK == .bodyNil || r.bodyK == .noBody || r.hasGetBody)
    && (r.method == "GET".data || r.method == "HEAD".data
        || r.method == "OPTIONS".data || r.method == "TRACE".data
        || headerHasKey r.header "Idempotency-Key".data
        || headerHasKey r.header "X-Idempotency-Key".data)

/-- The replayability rule amended to match the code: the idempotency
marker must be present with a nonempty value (Go tests
r.Header.Get(key) != ""). -/
def replayableSpecAmended (r : Request) : Bool :=
  (r.bodyK == .bodyNil || r.bodyK == .noBody || r.hasGetBody)
    && (r.method == "GET".data || r.method == "HEAD".data
        || r.method == "OPTIONS".data || r.method == "TRACE".data
        || headerGet r.header "Idempotency-Key".data != []
        || headerGet r.header "X-Idempotency-Key".data != [])

/-- The I/O environment of one exchange on the connection, abstracting the
network: whether the request's context is already done when the exchange
starts (the cancellation signal is sampled at the moments the code checks
it), the outcome of writing the request, and the outcome of reading the
response (a response id). -/
structure ExchangeEnv where
  ctxDoneAtStart : Bool
  writeErr : Option GoErr
  readRes : Except GoErr Nat

/-- A response as returned by connTransport.roundTrip: the response id
and whether its body has been wrapped in a bodyWithContext. -/
structure WResp where
  respId : Nat
  ctxWrapped : Bool
deriving DecidableEq

/-- The state of a connTransport (src/transport.go:90-96): the current
connection (an id), the optional redial function (indexed by how many
redials have happened, yielding a new connection id or an error), the
buffered reader (an id equal to the connection it reads, none until
created), and the used flag. -/
structure ConnT where
  conn : Nat
  redialFn : Option (Nat → Except GoErr Nat)
  br : Option Nat
  used : Bool

/-- Model of connTransport.roundTrip (src/transport.go:155-180): fail with
the cancellation error if the context is already done (before writing
anything); otherwise write the request (propagating a write error),
create the buffered reader if absent, read the response (propagating a
read error), and wrap a successful response body in a bodyWithContext.
Returns the result, the updated transport state, and whether anything was
written to the connection. -/
def ctRoundTrip (ct : ConnT) (env : ExchangeEnv) : Except GoErr WResp × ConnT × Bool :=
  if env.ctxDoneAtStart then (.error .ctxCanceled, ct, false)
  else
    match env.writeErr with
    | some e => (.error e, ct, true)
    | none =>
      let ct := if ct.br = none then { ct with br := some ct.conn } else ct
      match env.readRes with
      | .error e => (.error e, ct, true)
      | .ok rid => (.ok ⟨rid, true⟩, ct, true)

/-- Model of bodyWithContext.Read (src/transport.go:203-210): if the
context is done when the read is attempted, abort with the cancellation
error; otherwise return the underlying reader's result. -/
def bodyWithContextRead (ctxDone : Bool) (innerRead : Except GoErr Nat) : Except GoErr Nat :=
  if ctxDone then .error .ctxCanceled else innerRead

/-- Model of connTransport.redial (src/transport.go:182-194): fail when no
redial function is provided; call the redial function (k is the index of
this redial call) and fail on its error; on success close the old
connection, install the new one, and create a fresh buffered reader on
it.  Returns the result, the updated state, and the list of connections
closed. -/
def redial (ct : ConnT) (k : Nat) : Except GoErr Unit × ConnT × List Nat :=
  match ct.redialFn with
  | none => (.error .noRedialFunc, ct, [])
  | some f =>
    match f k with
    | .error e => (.error e, ct, [])
    | .ok newConn => (.ok (), { ct with conn := newConn, br := some newConn }, [ct.conn])

/-- The observable outcome of connTransport.RoundTrip: the result, the
final transport state, the verbose-log events emitted for redial errors
(0 marks the proactive path's log, 1 the reactive path's), the number of
redial calls made, the connection ids on which exchanges were attempted,
and the connections closed. -/
structure RTOut where
  res : Except GoErr WResp
  ct : ConnT
  logs : List Nat
  redialCalls : Nat
  exchangedOn : List Nat
  closes : List Nat

/-- Model of connTransport.RoundTrip (src/transport.go:98-120).  If the
session was already used and the request is not replayable, redial first;
the Go code at line 102 then tests err, the still-nil named return
value, instead of redialErr, so the branch that would log a proactive
redial failure never runs (the model keeps that dead test verbatim).
Mark the session used and do the exchange.  If it fails with a
redial-worthy error and the request is replayable, redial once: on
success retry the exchange, on failure log and keep the original error. -/
def RoundTrip (ct0 : ConnT) (req : Request) (env : Nat → ExchangeEnv) : RTOut :=
  let pro :=
    if ct0.used && !(requestIsReplayable req) then
      let r := redial ct0 0
      let errNamed : Option GoErr := none
      let logs : List Nat := if errNamed ≠ none then [0] else []
      (r.2.1, logs, r.2.2, 1)
    else (ct0, [], [], 0)
  let ct1 := { pro.1 with used := true }
  let ex0 := ctRoundTrip ct1 (env 0)
  match ex0.1 with
  | .ok r => ⟨.ok r, ex0.2.1, pro.2.1, pro.2.2.2, [ct1.conn], pro.2.2.1⟩
  | .error e =>
    if shouldRedialForError e && requestIsReplayable req then
      let rd := redial ex0.2.1 1
      match rd.1 with
      | .ok _ =>
        let ex1 := ctRoundTrip rd.2.1 (env 1)
        ⟨ex1.1, ex1.2.1, pro.2.1, pro.2.2.2 + 1, [ct1.conn, rd.2.1.conn],
          pro.2.2.1 ++ rd.2.2⟩
      | .error _ =>
        ⟨.error e, rd.2.1, pro.2.1 ++ [1], pro.2.2.2 + 1, [ct1.conn],
          pro.2.2.1 ++ rd.2.2⟩
    else ⟨.error e, ex0.2.1, pro.2.1, pro.2.2.2, [ct1.conn], pro.2.2.1⟩

/-- The bounded retry loop of RetryTransport.RoundTrip
(src/transport.go:273-280): up to `fuel` tries of the inner transport
(inner i is the result of the i-th call), returning the result and the
total number of inner calls on early exit, or none when every try failed
with a redial-worthy error. -/
def retryLoop (inner : Nat → Except GoErr Nat) (i : Nat) : Nat → Option (Except GoErr Nat × Nat)
  | 0 => none
  | fuel + 1 =>
    match inner i with
    | .ok r => some (.ok r, i + 1)
    | .error e =>
      if shouldRedialForError e then retryLoop inner (i + 1) fuel
      else some (.error e, i + 1)

/-- Model of RetryTransport.RoundTrip (src/transport.go:271-282): for a
replayable request, run the 3-iteration retry loop and, if every
iteration failed with a redial-worthy error, fall through to one final
unconditional call of the inner transport; a non-replayable request is
passed through with a single call.  Returns the result and the number of
calls of the inner transport. -/
def retryRoundTrip (inner : Nat → Except GoErr Nat) (req : Request) : Except GoErr Nat × Nat :=
  if requestIsReplayable req then
    match retryLoop inner 0 3 with
    | some out => out
    | none => (inner 3, 4)
  else (inner 0, 1)

deriving instance DecidableEq for Except

/-- The TLS environment of one dialWithExtraRootCerts call: the outcome of
tls.DialWithDialer (a connection id), the outcome of verifying the peer
certificate against the system roots (a verified-chains id), and, when a
supplementary root pool is configured (conf.ExtraRootCerts non-nil), the
outcome of verifying against it. -/
structure TLSEnv where
  dial : Except GoErr Nat
  sysVerify : Except GoErr Nat
  extraRoots : Option (Except GoErr Nat)

/-- The outcome of dialWithExtraRootCerts: the returned connection with
the verified chains attached to its state (or the returned error), and
whether the connection was closed. -/
structure DialOut where
  res : Except GoErr (Nat × Nat)
  closedConn : Bool
deriving DecidableEq

/-- Model of dialWithExtraRootCerts (src/transport.go:39-76): dial
(propagating a dial error); verify against the system roots and return
the connection with the chains on success; otherwise, when a
supplementary pool is configured, verify against it, err being
reassigned by this second Verify, and return the connection with the
chains on success; otherwise close the connection and return err, which
is the supplementary-pool error when that pool was tried and the
system-roots error when it was not. -/
def dialWithExtraRootCerts (env : TLSEnv) : DialOut :=
  match env.dial with
  | .error e => ⟨.error e, false⟩
  | .ok conn =>
    match env.sysVerify with
    | .ok chains => ⟨.ok (conn, chains), false⟩
    | .error e =>
      match env.extraRoots with
      | some (.ok chains) => ⟨.ok (conn, chains), false⟩
      | some (.error e2) => ⟨.error e2, true⟩
      | none => ⟨.error e, true⟩

theorem lastIndexOf_lt_length (c : Char) : ∀ (s : Str) (i : Nat), lastIndexOf c s = some i → i < s.length := by
  intro s
  induction s with
  | nil => intro i h; simp [lastIndexOf] at h
  | cons x xs ih =>
    intro i h
    simp only [lastIndexOf] at h
    cases hx : lastIndexOf c xs with
    | some j =>
      rw [hx] at h
      cases h
      have := ih j hx
      simp
      omega
    | none =>
      rw [hx] at h
      by_cases hc : x = c
      · simp [hc] at h
        cases h
        simp
      · simp [hc] at h

theorem indexOfChar_lt_length (c : Char) : ∀ (s : Str) (i : Nat), indexOfChar c s = some i → i < s.length := by
  intro s
  induction s with
  | nil => intro i h; simp [indexOfChar] at h
  | cons x xs ih =>
    intro i h
    simp only [indexOfChar] at h
    by_cases hc : x = c
    · simp [hc] at h
      cases h
      simp
    · simp [hc] at h
      cases hx : indexOfChar c xs with
      | some j =>
        rw [hx] at h
        cases h
        have := ih j hx
        simp
        omega
      | none => rw [hx] at h; cases h


theorem fragInnerGo_fuel_irrel (frs : List (Str × rule)) :
    ∀ (fuel : Nat) (s2 : Str) (acc : Finset rule), s2.length ≤ fuel →
      fragInnerGo frs fuel s2 acc = fragInner frs s2 acc := by
  intro fuel
  induction fuel using Nat.strong_induction_on with
  | _ fuel ih =>
    intro s2 acc hle
    unfold fragInner
    cases hli : lastIndexOf '/' (s2.take (s2.length - 1)) with
    | none =>
      rw [fragInnerGo.eq_1 frs s2 acc fuel hli, fragInnerGo.eq_1 frs s2 acc s2.length hli]
    | some slash =>
      have hlt := lastIndexOf_lt_length '/' _ slash hli
      simp only [List.length_take] at hlt
      obtain ⟨f, rfl⟩ : ∃ f, fuel = f.succ := ⟨fuel - 1, by omega⟩
      obtain ⟨m, hm⟩ : ∃ m, s2.length = m.succ := ⟨s2.length - 1, by omega⟩
      have htl : (s2.take (slash + 1)).length = slash + 1 := by
        simp only [List.length_take]
        omega
      rw [hm, fragInnerGo.eq_3 frs s2 acc slash f hli, fragInnerGo.eq_3 frs s2 acc slash m hli]
      rw [ih f (by omega) _ _ (by rw [htl]; omega),
        ih m (by omega) _ _ (by rw [htl]; omega)]

theorem fragWalkGo_fuel_irrel (frs : List (Str × rule)) :
    ∀ (fuel : Nat) (s path : Str) (acc : Finset rule), s.length ≤ fuel →
      fragWalkGo frs fuel s path acc = fragWalk frs s path acc := by
  intro fuel
  induction fuel using Nat.strong_induction_on with
  | _ fuel ih =>
    intro s path acc hle
    unfold fragWalk
    cases hdi : indexOfChar '.' s with
    | none =>
      rw [fragWalkGo.eq_1 frs s path acc fuel hdi, fragWalkGo.eq_1 frs s path acc s.length hdi]
    | some dot =>
      have hlt := indexOfChar_lt_length '.' s dot hdi
      obtain ⟨f, rfl⟩ : ∃ f, fuel = f.succ := ⟨fuel - 1, by omega⟩
      obtain ⟨m, hm⟩ : ∃ m, s.length = m.succ := ⟨s.length - 1, by omega⟩
      have htl : (s.drop (dot + 1)).length = s.length - (dot + 1) := by
        simp only [List.length_drop]
      rw [hm, fragWalkGo.eq_3 frs s path acc dot f hdi, fragWalkGo.eq_3 frs s path acc dot m hdi]
      rw [ih f (by omega) _ _ _ (by rw [htl]; omega),
        ih m (by omega) _ _ _ (by rw [htl]; omega)]

/-- One-step unfolding of fragInner, mirroring the loop body of
src/url.go:186-195. -/
theorem fragInner_eq (frs : List (Str × rule)) (s2 : Str) (acc : Finset rule) :
    fragInner frs s2 acc =
      (let acc1 := match lookupFrag frs s2 with
        | some r => insert r acc
        | none => acc
       match lastIndexOf '/' (s2.take (s2.length - 1)) with
       | none => acc1
       | some slash => fragInner frs (s2.take (slash + 1)) acc1) := by
  show fragInnerGo frs s2.length s2 acc = _
  cases hli : lastIndexOf '/' (s2.take (s2.length - 1)) with
  | none =>
    rw [fragInnerGo.eq_1 frs s2 acc s2.length hli]
  | some slash =>
    have hlt := lastIndexOf_lt_length '/' _ slash hli
    simp only [List.length_take] at hlt
    obtain ⟨m, hm⟩ : ∃ m, s2.length = m.succ := ⟨s2.length - 1, by omega⟩
    dsimp only
    rw [hm, fragInnerGo.eq_3 frs s2 acc slash m hli]
    exact fragInnerGo_fuel_irrel frs m _ _ (by simp only [List.length_take]; omega)

/-- One-step unfolding of fragWalk, mirroring the loop body of
src/url.go:182-205. -/
theorem fragWalk_eq (frs : List (Str × rule)) (s path : Str) (acc : Finset rule) :
    fragWalk frs s path acc =
      (let acc1 := fragInner frs (s ++ path) acc
       let acc2 := match lookupFrag frs s with
        | some r => insert r acc1
        | none => acc1
       match indexOfChar '.' s with
       | none => acc2
       | some dot => fragWalk frs (s.drop (dot + 1)) path acc2) := by
  show fragWalkGo frs s.length s path acc = _
  cases hdi : indexOfChar '.' s with
  | none =>
    rw [fragWalkGo.eq_1 frs s path acc s.length hdi]
  | some dot =>
    have hlt := indexOfChar_lt_length '.' s dot hdi
    obtain ⟨m, hm⟩ : ∃ m, s.length = m.succ := ⟨s.length - 1, by omega⟩
    dsimp only
    rw [hm, fragWalkGo.eq_3 frs s path acc dot m hdi]
    exact fragWalkGo_fuel_irrel frs m _ _ _ (by simp only [List.length_drop]; omega)

/-! Theorems: claims about requestIsReplayable (C7), dialWithExtraRootCerts
(C3), connTransport.redial (C10), cancellation (C6), and the proactive
redial path of connTransport.RoundTrip (C4). -/

/-- Claim C7, counterexample: the claim's wording (an idempotency marker
header being present suffices) fails on a POST whose Idempotency-Key
header is present with an empty value — the code tests for a nonempty
value and reports the request as not replayable. -/
theorem requestIsReplayable_presence_cex :
    requestIsReplayable ⟨"POST".data, .bodyNil, false, [("Idempotency-Key".data, [])]⟩ = false ∧
    replayableSpec ⟨"POST".data, .bodyNil, false, [("Idempotency-Key".data, [])]⟩ = true := by
  decide

theorem decide_eq_nil_eq_isEmpty (l : Str) : decide (l = []) = l.isEmpty := by
  cases l <;> simp

/-- Claim C7 (amended): a request is replayable if and only if its body is
empty or reproducible (nil, NoBody, or a GetBody function is present) and
either its method is GET, HEAD, OPTIONS or TRACE, or an idempotency
marker header (Idempotency-Key or X-Idempotency-Key) is present with a
nonempty value. -/
theorem requestIsReplayable_iff (r : Request) :
    requestIsReplayable r = replayableSpecAmended r := by
  unfold requestIsReplayable replayableSpecAmended
  rcases r with ⟨m, b, g, hs⟩
  cases b <;> cases g <;> simp <;>
    rcases hm : (m == "GET".data || m == "HEAD".data || m == "OPTIONS".data
        || m == "TRACE".data) with _ | _ <;>
      simp_all [Bool.or_assoc, bne, ← decide_eq_nil_eq_isEmpty] <;> tauto

/-- Claim C3, counterexample: when both verification attempts fail with
different errors, dialWithExtraRootCerts closes the connection but
returns the supplementary-pool error, not the original system-roots
error (err is reassigned by the second Verify call). -/
theorem dialWithExtraRootCerts_second_error_cex :
    dialWithExtraRootCerts ⟨.ok 1, .error (.other 1), some (.error (.other 2))⟩ =
      ⟨.error (.other 2), true⟩ ∧ GoErr.other 2 ≠ GoErr.other 1 := by
  decide

/-- Claim C3 (amended): whenever certificate-chain verification fails
against the system roots and also fails against the configured
supplementary pool, dialWithExtraRootCerts closes the connection and
returns the error of the last verification attempted — the
supplementary-pool error when such a pool is configured, and the
system-roots error when none is. -/
theorem dialWithExtraRootCerts_both_fail (env : TLSEnv) (conn : Nat) (e1 : GoErr)
    (hd : env.dial = .ok conn) (hs : env.sysVerify = .error e1) :
    (env.extraRoots = none → dialWithExtraRootCerts env = ⟨.error e1, true⟩) ∧
    (∀ e2, env.extraRoots = some (.error e2) →
      dialWithExtraRootCerts env = ⟨.error e2, true⟩) := by
  unfold dialWithExtraRootCerts
  rw [hd, hs]
  constructor
  · intro hx; rw [hx]
  · intro e2 hx; rw [hx]

/-- Witness for dialWithExtraRootCerts_both_fail at a concrete
environment with no supplementary pool. -/
theorem dialWithExtraRootCerts_both_fail_witness :
    dialWithExtraRootCerts ⟨.ok 1, .error (.other 3), none⟩ = ⟨.error (.other 3), true⟩ :=
  (dialWithExtraRootCerts_both_fail ⟨.ok 1, .error (.other 3), none⟩ 1 (.other 3) rfl rfl).1 rfl

/-- Claim C10: when connTransport.redial fails — no redial function, or
the redial function returns an error — the session state is unchanged and
no connection is closed; Conn and br are replaced (and the old connection
closed) exactly when the redial function succeeds. -/
theorem redial_failure_leaves_state (ct : ConnT) (k : Nat) :
    (∀ e : GoErr, (redial ct k).1 = .error e → (redial ct k).2 = (ct, [])) ∧
    (∀ u : Unit, (redial ct k).1 = .ok u →
      ∃ f nc, ct.redialFn = some f ∧ f k = .ok nc ∧
        (redial ct k).2 = ({ ct with conn := nc, br := some nc }, [ct.conn])) := by
  unfold redial
  cases hf : ct.redialFn with
  | none => simp
  | some f =>
    dsimp only
    cases hfk : f k with
    | error e => simp
    | ok nc => exact ⟨fun e h => by simp at h, fun u _ => ⟨f, nc, rfl, hfk, rfl⟩⟩

/-- Witness for redial_failure_leaves_state at a concrete transport whose
redial function fails. -/
theorem redial_failure_leaves_state_witness :
    (redial ⟨3, some (fun _ => .error (.other 1)), none, false⟩ 0).2 =
      (⟨3, some (fun _ => .error (.other 1)), none, false⟩, []) :=
  (redial_failure_leaves_state ⟨3, some (fun _ => .error (.other 1)), none, false⟩ 0).1
    (.other 1) rfl

/-- Claim C6: if the request's context is already done when the exchange
starts, connTransport.roundTrip fails with the cancellation error without
writing anything; every response it returns has its body wrapped in a
bodyWithContext; and a body read attempted while the context is done
aborts with the cancellation error.  (The cancellation signal is
modelled as sampled at the moments the code checks it: at the start of
the exchange and at the start of each body read.) -/
theorem roundTrip_cancellation (ct : ConnT) (env : ExchangeEnv) (innerRead : Except GoErr Nat) :
    (env.ctxDoneAtStart = true → ctRoundTrip ct env = (.error .ctxCanceled, ct, false)) ∧
    (∀ r ct' w, ctRoundTrip ct env = (.ok r, ct', w) → r.ctxWrapped = true) ∧
    bodyWithContextRead true innerRead = .error .ctxCanceled := by
  refine ⟨fun h => by unfold ctRoundTrip; rw [h]; simp, fun r ct' w h => ?_, rfl⟩
  unfold ctRoundTrip at h
  split at h
  · simp at h
  · split at h
    · simp at h
    · split at h <;>
      { cases hr : env.readRes with
        | error e => rw [hr] at h; simp at h
        | ok rid =>
          rw [hr] at h
          simp only [Prod.mk.injEq, Except.ok.injEq] at h
          obtain ⟨h1, -, -⟩ := h
          subst h1
          rfl }

/-- Witness for roundTrip_cancellation at a concrete transport and an
already-canceled context. -/
theorem roundTrip_cancellation_witness :
    ctRoundTrip ⟨1, none, none, false⟩ ⟨true, none, .ok 0⟩ =
      (.error .ctxCanceled, ⟨1, none, none, false⟩, false) ∧
    bodyWithContextRead true (.ok 3) = .error .ctxCanceled :=
  ⟨(roundTrip_cancellation ⟨1, none, none, false⟩ ⟨true, none, .ok 0⟩ (.ok 3)).1 rfl,
   (roundTrip_cancellation ⟨1, none, none, false⟩ ⟨true, none, .ok 0⟩ (.ok 3)).2.2⟩

/-- Claim C4: on a used session with a non-replayable request whose
proactive redial fails, connTransport.RoundTrip attempts the redial
(redialCalls = 1), proceeds with the exchange on the existing connection
(id 5) and returns its result — but emits no log event: the code at
src/transport.go:102 tests err, the still-nil named return value, instead
of redialErr, so the claimed logging of the redial failure never
happens. -/
theorem roundTrip_proactive_failure_unlogged :
    (RoundTrip ⟨5, some (fun _ => .error (.other 7)), some 5, true⟩
        ⟨"POST".data, .bodyNil, false, []⟩ (fun _ => ⟨false, none, .ok 42⟩)).redialCalls = 1 ∧
    (RoundTrip ⟨5, some (fun _ => .error (.other 7)), some 5, true⟩
        ⟨"POST".data, .bodyNil, false, []⟩ (fun _ => ⟨false, none, .ok 42⟩)).exchangedOn = [5] ∧
    (RoundTrip ⟨5, some (fun _ => .error (.other 7)), some 5, true⟩
        ⟨"POST".data, .bodyNil, false, []⟩ (fun _ => ⟨false, none, .ok 42⟩)).res = .ok ⟨42, true⟩ ∧
    (RoundTrip ⟨5, some (fun _ => .error (.other 7)), some 5, true⟩
        ⟨"POST".data, .bodyNil, false, []⟩ (fun _ => ⟨false, none, .ok 42⟩)).logs = [] := by
  decide

theorem retryLoop_none_spec (inner : Nat → Except GoErr Nat) :
    ∀ (fuel i : Nat), retryLoop inner i fuel = none →
      ∀ j, i ≤ j → j < i + fuel → ∃ e, inner j = .error e ∧ shouldRedialForError e = true := by
  intro fuel
  induction fuel with
  | zero => intro i _ j _ hj; omega
  | succ fuel ih =>
    intro i h j hij hj
    unfold retryLoop at h
    cases hi : inner i with
    | ok r => rw [hi] at h; simp at h
    | error e =>
      rw [hi] at h
      dsimp only at h
      by_cases hsr : shouldRedialForError e = true
      · rw [if_pos hsr] at h
        rcases Nat.eq_or_lt_of_le hij with heq | hlt
        · exact heq ▸ ⟨e, hi, hsr⟩
        · exact ih (i + 1) h j hlt (by omega)
      · rw [if_neg hsr] at h; simp at h

theorem retryLoop_some_spec (inner : Nat → Except GoErr Nat) :
    ∀ (fuel i : Nat) (res : Except GoErr Nat) (n : Nat),
      retryLoop inner i fuel = some (res, n) →
      i < n ∧ n ≤ i + fuel ∧ res = inner (n - 1) ∧
      (∀ j, i ≤ j → j + 1 < n → ∃ e, inner j = .error e ∧ shouldRedialForError e = true) ∧
      (∀ e, res = .error e → shouldRedialForError e = false) := by
  intro fuel
  induction fuel with
  | zero => intro i res n h; simp [retryLoop] at h
  | succ fuel ih =>
    intro i res n h
    unfold retryLoop at h
    cases hi : inner i with
    | ok r =>
      rw [hi] at h
      dsimp only at h
      have hp := Option.some.inj h
      have h1 : Except.ok r = res := congrArg Prod.fst hp
      have h2 : i + 1 = n := congrArg Prod.snd hp
      subst h2
      refine ⟨by omega, by omega, by rw [← h1, Nat.add_sub_cancel, hi],
        fun j hij hj => by omega, ?_⟩
      intro e he
      rw [← h1] at he
      cases he
    | error e =>
      rw [hi] at h
      dsimp only at h
      by_cases hsr : shouldRedialForError e = true
      · rw [if_pos hsr] at h
        obtain ⟨g1, g2, g3, g4, g5⟩ := ih (i + 1) res n h
        refine ⟨by omega, by omega, g3, fun j hij hj => ?_, g5⟩
        rcases Nat.eq_or_lt_of_le hij with heq | hlt
        · exact heq ▸ ⟨e, hi, hsr⟩
        · exact g4 j hlt hj
      · rw [if_neg hsr] at h
        have hp := Option.some.inj h
        have h1 : Except.error e = res := congrArg Prod.fst hp
        have h2 : i + 1 = n := congrArg Prod.snd hp
        subst h2
        refine ⟨by omega, by omega, by rw [← h1, Nat.add_sub_cancel, hi],
          fun j hij hj => by omega, ?_⟩
        intro e' he'
        rw [← h1] at he'
        injection he' with hee
        subst hee
        simpa using hsr

/-- Claim C1, counterexample: a replayable GET whose every attempt fails
with io.EOF (redial-worthy) causes RetryTransport.RoundTrip to call the
inner transport 4 times, not at most 3: the 3-iteration loop is followed
by one final unconditional call, whose error is returned. -/
theorem retryRoundTrip_four_attempts_cex :
    (retryRoundTrip (fun _ => .error .eof) ⟨"GET".data, .bodyNil, false, []⟩).2 = 4 ∧
    ¬ (retryRoundTrip (fun _ => .error .eof) ⟨"GET".data, .bodyNil, false, []⟩).2 ≤ 3 ∧
    (retryRoundTrip (fun _ => .error .eof) ⟨"GET".data, .bodyNil, false, []⟩).1 = .error .eof := by
  decide

/-- Claim C1 (amended): for every replayable request,
RetryTransport.RoundTrip makes at most 4 calls of the inner transport (3
in the retry loop plus one final unconditional call), it returns the
result of the last call made, every call before the last failed with a
redial-worthy error, and when it stops before the fourth call the last
result was a success or an error not classified as redial-worthy — so if
all attempts fail, the final (fourth) error is returned. -/
theorem retryRoundTrip_at_most_four (inner : Nat → Except GoErr Nat) (req : Request)
    (h : requestIsReplayable req = true) :
    (retryRoundTrip inner req).2 ≤ 4 ∧
    (retryRoundTrip inner req).1 = inner ((retryRoundTrip inner req).2 - 1) ∧
    (∀ j, j + 1 < (retryRoundTrip inner req).2 →
      ∃ e, inner j = .error e ∧ shouldRedialForError e = true) ∧
    ((retryRoundTrip inner req).2 < 4 →
      ∀ e, (retryRoundTrip inner req).1 = .error e → shouldRedialForError e = false) := by
  unfold retryRoundTrip
  rw [if_pos h]
  cases hl : retryLoop inner 0 3 with
  | none =>
    dsimp only
    refine ⟨by omega, rfl, fun j hj => ?_, ?_⟩
    · exact retryLoop_none_spec inner 3 0 hl j (by omega) (by omega)
    · intro hlt; omega
  | some out =>
    obtain ⟨res, n⟩ := out
    obtain ⟨g1, g2, g3, g4, g5⟩ := retryLoop_some_spec inner 3 0 res n hl
    dsimp only
    exact ⟨by omega, g3, fun j hj => g4 j (by omega) hj, fun _ => g5⟩

/-- Witness for retryRoundTrip_at_most_four at a concrete inner transport
that succeeds immediately and a concrete replayable request. -/
theorem retryRoundTrip_at_most_four_witness :
    (retryRoundTrip (fun _ => .ok 1) ⟨"GET".data, .bodyNil, false, []⟩).2 ≤ 4 :=
  (retryRoundTrip_at_most_four (fun _ => .ok 1) ⟨"GET".data, .bodyNil, false, []⟩ (by decide)).1

/-! Claim C2: the literal-substring pruning of regexMap.findMatches does
not change the tally: the result equals evaluating every successfully
compiled registered regex individually. -/

theorem mem_bucket (rm : regexMap) (p : Str) (rr : regexRule) :
    rr ∈ bucket rm p ↔ (p, rr) ∈ rm.rules := by
  simp only [bucket, List.mem_map, List.mem_filter, beq_iff_eq]
  constructor
  · rintro ⟨⟨q, rr'⟩, ⟨hm, h1⟩, h2⟩
    cases h1
    cases h2
    exact hm
  · intro h
    exact ⟨(p, rr), ⟨h, rfl⟩, rfl⟩

theorem findMatches_eq_matchedSet (rm : regexMap) (hg : goodMap rm) (s : Str)
    (tally : Finset rule) :
    findMatches rm s tally = tally ∪ matchedSet (allRules rm) s := by
  simp only [findMatches]
  ext a
  constructor
  · intro ha
    rcases Finset.mem_union.mp ha with ha | ha
    · rcases Finset.mem_union.mp ha with ha | ha
      · exact Finset.mem_union_left _ ha
      · obtain ⟨rr, hrr, rfl⟩ := List.mem_map.mp (List.mem_toFinset.mp ha)
        obtain ⟨l, hl, hrl⟩ := List.mem_flatten.mp hrr
        obtain ⟨p, _hp, rfl⟩ := List.mem_map.mp hl
        obtain ⟨hb, hm⟩ := List.mem_filter.mp hrl
        refine Finset.mem_union_right _ (List.mem_toFinset.mpr (List.mem_map.mpr
          ⟨rr, List.mem_filter.mpr ⟨?_, hm⟩, rfl⟩))
        exact List.mem_map.mpr ⟨(p, rr), (mem_bucket rm p rr).mp hb, rfl⟩
    · obtain ⟨rr, hrr, rfl⟩ := List.mem_map.mp (List.mem_toFinset.mp ha)
      obtain ⟨hb, hm⟩ := List.mem_filter.mp hrr
      refine Finset.mem_union_right _ (List.mem_toFinset.mpr (List.mem_map.mpr
        ⟨rr, List.mem_filter.mpr ⟨?_, hm⟩, rfl⟩))
      exact List.mem_map.mpr ⟨([], rr), (mem_bucket rm [] rr).mp hb, rfl⟩
  · intro ha
    rcases Finset.mem_union.mp ha with ha | ha
    · exact Finset.mem_union_left _ (Finset.mem_union_left _ ha)
    · obtain ⟨rr, hf, rfl⟩ := List.mem_map.mp (List.mem_toFinset.mp ha)
      obtain ⟨hmem, hm⟩ := List.mem_filter.mp hf
      obtain ⟨⟨p, rr'⟩, hpair, heq⟩ := List.mem_map.mp hmem
      cases heq
      by_cases hp : p = []
      · subst hp
        exact Finset.mem_union_right _ (List.mem_toFinset.mpr (List.mem_map.mpr
          ⟨rr', List.mem_filter.mpr ⟨(mem_bucket rm [] rr').mpr hpair, hm⟩, rfl⟩))
      · obtain ⟨hin, hreq'⟩ := hg p rr' hpair hp
        have hcs : containsSub p s = true := hreq' s hm
        refine Finset.mem_union_left _ (Finset.mem_union_right _
          (List.mem_toFinset.mpr (List.mem_map.mpr ⟨rr', ?_, rfl⟩)))
        refine List.mem_flatten.mpr ⟨(bucket rm p).filter (fun r => r.re.MatchString s),
          List.mem_map.mpr ⟨p, List.mem_filter.mpr ⟨hin, hcs⟩, rfl⟩, ?_⟩
        exact List.mem_filter.mpr ⟨(mem_bucket rm p rr').mpr hpair, hm⟩

theorem matchedSet_append (l1 l2 : List regexRule) (s : Str) :
    matchedSet (l1 ++ l2) s = matchedSet l1 s ∪ matchedSet l2 s := by
  simp [matchedSet, List.filter_append]

theorem matchedSet_const (ss : List Str) (hne : ss ≠ []) (rr : regexRule) (s : Str) :
    matchedSet (ss.map (fun _ => rr)) s = matchedSet [rr] s := by
  cases ss with
  | nil => exact absurd rfl hne
  | cons p ps =>
    ext a
    simp only [matchedSet, List.mem_toFinset, List.mem_map, List.mem_filter,
      List.mem_singleton]
    constructor
    · rintro ⟨rr', ⟨⟨x, _hx, heq⟩, hm⟩, ha⟩
      exact ⟨rr', ⟨heq.symm, hm⟩, ha⟩
    · rintro ⟨rr', ⟨heq, hm⟩, ha⟩
      exact ⟨rr', ⟨⟨p, List.mem_cons_self p ps, heq.symm⟩, hm⟩, ha⟩

theorem compiledRules_cons (eng : RegexEngine) (r : rule) (rs : List rule) :
    compiledRules eng (r :: rs) = compiledRules eng [r] ++ compiledRules eng rs := by
  cases hc : eng.compile r.content <;>
    simp [compiledRules, List.filterMap_cons, hc]

theorem foldl_min_le_init : ∀ (rest : List Str) (acc : Nat),
    rest.foldl (fun m q => min m q.length) acc ≤ acc := by
  intro rest
  induction rest with
  | nil => intro acc; simp
  | cons x rest ih =>
    intro acc
    calc (x :: rest).foldl (fun m q => min m q.length) acc
        = rest.foldl (fun m q => min m q.length) (min acc x.length) := rfl
      _ ≤ min acc x.length := ih _
      _ ≤ acc := Nat.min_le_left _ _

theorem minLen_le_of_mem (q : Str) : ∀ (ss : List Str), q ∈ ss → minLen ss ≤ q.length := by
  have key : ∀ (rest : List Str) (acc : Nat), q ∈ rest →
      rest.foldl (fun m p => min m p.length) acc ≤ q.length := by
    intro rest
    induction rest with
    | nil => intro acc h; cases h
    | cons x rest ih =>
      intro acc h
      rcases List.mem_cons.mp h with rfl | h
      · calc (q :: rest).foldl (fun m p => min m p.length) acc
            = rest.foldl (fun m p => min m p.length) (min acc q.length) := rfl
          _ ≤ min acc q.length := foldl_min_le_init _ _
          _ ≤ q.length := Nat.min_le_right _ _
      · exact ih _ h
  intro ss h
  cases ss with
  | nil => cases h
  | cons p ps =>
    rcases List.mem_cons.mp h with rfl | h
    · exact le_trans (foldl_min_le_init _ _) (le_refl _)
    · exact key ps _ h

theorem addRule_goodMap (eng : RegexEngine)
    (hreq : ∀ p re ss, eng.compile p = some re → eng.regexStrings p = some ss →
      ∀ st ∈ ss, ∀ s, re.MatchString s = true → containsSub st s = true)
    (rm : regexMap) (r : rule) (hg : goodMap rm) : goodMap (addRule eng rm r) := by
  unfold addRule
  cases hc : eng.compile r.content with
  | none => exact hg
  | some re =>
    dsimp only
    cases hs : eng.regexStrings r.content with
    | none =>
      intro p rr hmem hp
      rcases List.mem_append.mp hmem with hm | hm
      · exact hg p rr hm hp
      · simp at hm
        exact absurd hm.1 hp
    | some ss =>
      dsimp only
      by_cases hz : minLen ss = 0
      · rw [if_pos hz]
        intro p rr hmem hp
        rcases List.mem_append.mp hmem with hm | hm
        · exact hg p rr hm hp
        · simp at hm
          exact absurd hm.1 hp
      · rw [if_neg hz]
        intro p rr hmem hp
        rcases List.mem_append.mp hmem with hm | hm
        · obtain ⟨hin, hr⟩ := hg p rr hm hp
          exact ⟨List.mem_append_left _ hin, hr⟩
        · obtain ⟨q, hq, heq⟩ := List.mem_map.mp hm
          have h1 : q = p := congrArg Prod.fst heq
          have h2 : (⟨r, re⟩ : regexRule) = rr := congrArg Prod.snd heq
          subst h2
          exact ⟨List.mem_append_right _ (h1 ▸ hq),
            fun s hm' => hreq r.content re ss hc hs p (h1 ▸ hq) s hm'⟩

theorem addRule_matchedSet (eng : RegexEngine) (rm : regexMap) (r : rule) (s : Str) :
    matchedSet (allRules (addRule eng rm r)) s
      = matchedSet (allRules rm) s ∪ matchedSet (compiledRules eng [r]) s := by
  unfold addRule
  cases hc : eng.compile r.content with
  | none => simp [compiledRules, hc, matchedSet]
  | some re =>
    dsimp only
    have hcr : compiledRules eng [r] = [⟨r, re⟩] := by simp [compiledRules, hc]
    cases hs : eng.regexStrings r.content with
    | none =>
      rw [hcr]
      simp only [allRules, List.map_append]
      rw [matchedSet_append]
      simp [matchedSet]
    | some ss =>
      dsimp only
      by_cases hz : minLen ss = 0
      · rw [if_pos hz, hcr]
        simp only [allRules, List.map_append]
        rw [matchedSet_append]
        simp [matchedSet]
      · rw [if_neg hz, hcr]
        have hne : ss ≠ [] := by
          intro h
          subst h
          exact hz rfl
        simp only [allRules, List.map_append, List.map_map]
        rw [matchedSet_append]
        have hmap : (ss.map ((·.2) ∘ fun p => (p, (⟨r, re⟩ : regexRule)))) =
            ss.map (fun _ => (⟨r, re⟩ : regexRule)) := rfl
        rw [hmap, matchedSet_const ss hne]

theorem foldl_matchedSet (eng : RegexEngine) : ∀ (rs : List rule) (rm : regexMap) (s : Str),
    matchedSet (allRules (rs.foldl (addRule eng) rm)) s
      = matchedSet (allRules rm) s ∪ matchedSet (compiledRules eng rs) s := by
  intro rs
  induction rs with
  | nil => intro rm s; simp [compiledRules, matchedSet]
  | cons r rs ih =>
    intro rm s
    rw [List.foldl_cons, ih, addRule_matchedSet, compiledRules_cons eng r rs,
      matchedSet_append]
    exact Finset.union_assoc _ _ _

theorem foldl_goodMap (eng : RegexEngine)
    (hreq : ∀ p re ss, eng.compile p = some re → eng.regexStrings p = some ss →
      ∀ st ∈ ss, ∀ s, re.MatchString s = true → containsSub st s = true) :
    ∀ (rs : List rule) (rm : regexMap), goodMap rm → goodMap (rs.foldl (addRule eng) rm) := by
  intro rs
  induction rs with
  | nil => intro rm h; exact h
  | cons r rs ih =>
    intro rm h
    rw [List.foldl_cons]
    exact ih _ (addRule_goodMap eng hreq rm r h)

/-- Claim C2: for every input text and every list of rules added via
addRule (starting from an empty regexMap), the tally produced by
findMatches equals the tally produced by evaluating every successfully
compiled registered regex individually against that text — the
literal-substring pruning changes no match result.  The hypothesis is the
contract of the (spec-modelled) regexStrings: every extracted literal
occurs in any text the compiled pattern matches. -/
theorem findMatches_eq_individual_evaluation (eng : RegexEngine)
    (hreq : ∀ p re ss, eng.compile p = some re → eng.regexStrings p = some ss →
      ∀ st ∈ ss, ∀ s, re.MatchString s = true → containsSub st s = true)
    (rs : List rule) (s : Str) (tally : Finset rule) :
    findMatches (rs.foldl (addRule eng) newRegexMap) s tally
      = tally ∪ matchedSet (compiledRules eng rs) s := by
  rw [findMatches_eq_matchedSet _ (foldl_goodMap eng hreq rs newRegexMap
    (by intro p rr h; simp [newRegexMap] at h)) s tally]
  rw [foldl_matchedSet]
  simp [allRules, newRegexMap, matchedSet]

/-- Witness for findMatches_eq_individual_evaluation at a concrete engine
(whose regexes test for a prefix and extract no literals), one rule, and
a concrete text. -/
theorem findMatches_eq_individual_evaluation_witness :
    findMatches ([(⟨.hostRegex, "ab".data⟩ : rule)].foldl
        (addRule ⟨fun p => some ⟨fun s => isPrefixB p s⟩, fun _ => none⟩) newRegexMap)
      "abc".data ∅
    = ∅ ∪ matchedSet (compiledRules ⟨fun p => some ⟨fun s => isPrefixB p s⟩, fun _ => none⟩
        [⟨.hostRegex, "ab".data⟩]) "abc".data :=
  findMatches_eq_individual_evaluation ⟨fun p => some ⟨fun s => isPrefixB p s⟩, fun _ => none⟩
    (fun _ _ _ _ hs => nomatch hs) [⟨.hostRegex, "ab".data⟩] "abc".data ∅

/-! Claim C8: host matching is insensitive to an explicit port suffix, and
a bracketed IPv6 host with a trailing port loses only the port. -/

theorem containsChar_eq_false (a : Char) : ∀ (s : Str), a ∉ s → containsChar a s = false := by
  intro s
  induction s with
  | nil => intro; rfl
  | cons x xs ih =>
    intro h
    simp only [List.mem_cons, not_or] at h
    simp only [containsChar, ih h.2, Bool.or_false, beq_eq_false_iff_ne, ne_eq]
    exact fun he => h.1 he.symm

theorem containsChar_eq_true (a : Char) : ∀ (s : Str), a ∈ s → containsChar a s = true := by
  intro s
  induction s with
  | nil => intro h; cases h
  | cons x xs ih =>
    intro h
    rcases List.mem_cons.mp h with rfl | h
    · simp [containsChar]
    · simp [containsChar, ih h]

theorem lastIndexOf_eq_none (c : Char) : ∀ (s : Str), c ∉ s → lastIndexOf c s = none := by
  intro s
  induction s with
  | nil => intro; rfl
  | cons x xs ih =>
    intro h
    simp only [List.mem_cons, not_or] at h
    simp only [lastIndexOf, ih h.2]
    rw [if_neg (fun hxc => h.1 hxc.symm)]

theorem lastIndexOf_append_cons (c : Char) (lh p : Str) (hp : c ∉ p) :
    lastIndexOf c (lh ++ c :: p) = some lh.length := by
  induction lh with
  | nil =>
    simp only [List.nil_append, lastIndexOf, lastIndexOf_eq_none c p hp]
    simp
  | cons x lh ih =>
    rw [List.cons_append]
    show (match lastIndexOf c (lh ++ c :: p) with
      | some i => some (i + 1)
      | none => if x = c then some 0 else none) = some (lh.length + 1)
    rw [ih]

theorem stripPort_of_append (lh p : Str) (h1 : ':' ∉ p) (h2 : ']' ∉ p) :
    stripPort (lh ++ ':' :: p) = lh := by
  unfold stripPort
  rw [lastIndexOf_append_cons ':' lh p h1]
  dsimp only
  rw [List.drop_left]
  rw [containsChar_eq_false ']' (':' :: p) (by simp [h2])]
  simp only [Bool.false_eq_true, if_false]
  exact List.take_left lh (':' :: p)

theorem stripPort_bracketed_no_port (x : Str) :
    stripPort (x ++ [']']) = x ++ [']'] := by
  unfold stripPort
  cases hli : lastIndexOf ':' (x ++ [']']) with
  | none => rfl
  | some colon =>
    have hlt := lastIndexOf_lt_length ':' _ colon hli
    have hc : colon ≤ x.length := by
      simp only [List.length_append, List.length_singleton] at hlt
      omega
    have hmem : ']' ∈ (x ++ [']']).drop colon := by
      rw [List.drop_append_of_le_length hc]
      exact List.mem_append_right _ (List.mem_singleton.mpr rfl)
    dsimp only
    rw [containsChar_eq_true ']' _ hmem]
    simp

theorem toLowerChar_digit (c : Char) (h : isDigitChar c = true) : toLowerChar c = c := by
  simp only [isDigitChar, Bool.and_eq_true, decide_eq_true_eq] at h
  unfold toLowerChar
  rw [if_neg]
  intro hcon
  omega

theorem digit_ne_colon (c : Char) (h : isDigitChar c = true) : c ≠ ':' := by
  intro he
  rw [he] at h
  exact absurd h (by decide)

theorem digit_ne_bracket (c : Char) (h : isDigitChar c = true) : c ≠ ']' := by
  intro he
  rw [he] at h
  exact absurd h (by decide)

theorem lowerStr_of_digits : ∀ (p : Str), (∀ c ∈ p, isDigitChar c = true) → lowerStr p = p := by
  intro p
  induction p with
  | nil => intro; rfl
  | cons x xs ih =>
    intro h
    show toLowerChar x :: lowerStr xs = x :: xs
    rw [toLowerChar_digit x (h x (List.mem_cons_self x xs)),
      ih (fun c hc => h c (List.mem_cons_of_mem x hc))]

/-- Claim C8: MatchingRules strips a trailing port from the host before
any matching, so a URL whose host is h with an explicit numeric port
matches exactly the same rules as the same URL with host h (for any host
h that port stripping leaves unchanged); and for a bracketed IPv6 host,
stripping removes only the trailing port after the closing bracket —
never part of the bracketed address — and leaves a bracketed host without
a port untouched. -/
theorem MatchingRules_port_insensitive (ext : Ext) (m : URLMatcher)
    (scheme path query h p a : Str) :
    (stripPort (lowerStr h) = lowerStr h → (∀ c ∈ p, isDigitChar c = true) →
      MatchingRules ext m ⟨scheme, h ++ ':' :: p, path, query⟩
        = MatchingRules ext m ⟨scheme, h, path, query⟩) ∧
    ((∀ c ∈ p, isDigitChar c = true) →
      stripPort ('[' :: a ++ ']' :: ':' :: p) = '[' :: a ++ [']'] ∧
      stripPort ('[' :: a ++ [']']) = '[' :: a ++ [']']) := by
  constructor
  · intro hh hdig
    have hnc : ':' ∉ p := fun hc => digit_ne_colon ':' (hdig ':' hc) rfl
    have hnb : ']' ∉ p := fun hc => digit_ne_bracket ']' (hdig ']' hc) rfl
    have hlp : lowerStr (h ++ ':' :: p) = lowerStr h ++ ':' :: p := by
      show (h ++ ':' :: p).map toLowerChar = lowerStr h ++ ':' :: p
      rw [List.map_append]
      show lowerStr h ++ toLowerChar ':' :: lowerStr p = lowerStr h ++ ':' :: p
      rw [lowerStr_of_digits p hdig]
      rfl
    simp only [MatchingRules]
    rw [hlp, stripPort_of_append (lowerStr h) p hnc hnb, hh]
  · intro hdig
    have hnc : ':' ∉ p := fun hc => digit_ne_colon ':' (hdig ':' hc) rfl
    have hnb : ']' ∉ p := fun hc => digit_ne_bracket ']' (hdig ']' hc) rfl
    constructor
    · have hsplit : '[' :: a ++ ']' :: ':' :: p = ('[' :: a ++ [']']) ++ ':' :: p := by
        simp
      rw [hsplit]
      exact stripPort_of_append _ p hnc hnb
    · exact stripPort_bracketed_no_port ('[' :: a)

/-- Witness for MatchingRules_port_insensitive: example.com:8080/x matches
the same rules as example.com/x on an empty matcher, and a concrete
bracketed IPv6 host keeps its address when the port is stripped. -/
theorem MatchingRules_port_insensitive_witness :
    MatchingRules ⟨fun _ => none, fun _ => none⟩ newURLMatcher
        ⟨"http".data, "example.com".data ++ ':' :: "8080".data, "/x".data, []⟩
      = MatchingRules ⟨fun _ => none, fun _ => none⟩ newURLMatcher
        ⟨"http".data, "example.com".data, "/x".data, []⟩ ∧
    stripPort ('[' :: "::1".data ++ ']' :: ':' :: "8080".data) = '[' :: "::1".data ++ [']'] :=
  ⟨(MatchingRules_port_insensitive ⟨fun _ => none, fun _ => none⟩ newURLMatcher
      "http".data "/x".data [] "example.com".data "8080".data "::1".data).1
        (by decide) (by decide),
   ((MatchingRules_port_insensitive ⟨fun _ => none, fun _ => none⟩ newURLMatcher
      "http".data "/x".data [] "example.com".data "8080".data "::1".data).2
        (by decide)).1⟩

/-! Claim C5: fragment rule with content example.com/sub against the URLs
http://example.com/sub, http://example.com/sub/x, http://example.com/subpath. -/

/-- Claim C5, counterexample: a fragment rule registered with content
example.com/sub is NOT included in the tally for http://example.com/sub/x,
contrary to the claim: the fragment walk trims the path back to whole
slash-delimited segments keeping the trailing slash, so the candidate
keys example.com/sub/ and example.com/ never equal the registered key. -/
theorem MatchingRules_sub_slash_x_not_matched :
    (⟨.urlMatch, "example.com/sub".data⟩ : rule) ∉
      MatchingRules ⟨fun _ => none, fun _ => none⟩
        (AddRule ⟨fun _ => none, fun _ => none⟩ newURLMatcher
          ⟨.urlMatch, "example.com/sub".data⟩)
        ⟨"http".data, "example.com".data, "/sub/x".data, []⟩ := by
  decide

/-- Claim C5 (amended): a fragment rule registered with content
example.com/sub is included in the tally for http://example.com/sub, and
excluded both for http://example.com/sub/x and for
http://example.com/subpath (the walk's trimmed candidates all end in a
slash, so only the exact host-plus-path key matches). -/
theorem MatchingRules_sub_fragment :
    ((⟨.urlMatch, "example.com/sub".data⟩ : rule) ∈
      MatchingRules ⟨fun _ => none, fun _ => none⟩
        (AddRule ⟨fun _ => none, fun _ => none⟩ newURLMatcher
          ⟨.urlMatch, "example.com/sub".data⟩)
        ⟨"http".data, "example.com".data, "/sub".data, []⟩) ∧
    ((⟨.urlMatch, "example.com/sub".data⟩ : rule) ∉
      MatchingRules ⟨fun _ => none, fun _ => none⟩
        (AddRule ⟨fun _ => none, fun _ => none⟩ newURLMatcher
          ⟨.urlMatch, "example.com/sub".data⟩)
        ⟨"http".data, "example.com".data, "/sub/x".data, []⟩) ∧
    ((⟨.urlMatch, "example.com/sub".data⟩ : rule) ∉
      MatchingRules ⟨fun _ => none, fun _ => none⟩
        (AddRule ⟨fun _ => none, fun _ => none⟩ newURLMatcher
          ⟨.urlMatch, "example.com/sub".data⟩)
        ⟨"http".data, "example.com".data, "/subpath".data, []⟩) := by
  refine ⟨by decide, by decide, by decide⟩

/-! Claim C9: a fragment rule on host h1 is found when matching any host
formed by prepending labels to h1, and not the other way around. -/

theorem subset_insertOpt (acc : Finset rule) (o : Option rule) :
    acc ⊆ (match o with | some r => insert r acc | none => acc) := by
  cases o with
  | none => exact Finset.Subset.refl acc
  | some r => exact Finset.subset_insert r acc

theorem mem_insertOpt_elim (a : rule) (acc : Finset rule) (o : Option rule)
    (h : a ∈ (match o with | some r => insert r acc | none => acc)) :
    a ∈ acc ∨ o = some a := by
  cases o with
  | none => exact Or.inl h
  | some r =>
    rcases Finset.mem_insert.mp h with rfl | h
    · exact Or.inr rfl
    · exact Or.inl h

theorem fragInner_superset (frs : List (Str × rule)) :
    ∀ (n : Nat) (s2 : Str), s2.length ≤ n → ∀ (acc : Finset rule),
      acc ⊆ fragInner frs s2 acc := by
  intro n
  induction n using Nat.strong_induction_on with
  | _ n ih =>
    intro s2 hn acc
    rw [fragInner_eq]
    cases hli : lastIndexOf '/' (s2.take (s2.length - 1)) with
    | none =>
      exact subset_insertOpt acc _
    | some slash =>
      have hlt := lastIndexOf_lt_length '/' _ slash hli
      simp only [List.length_take] at hlt
      dsimp only
      refine Finset.Subset.trans (subset_insertOpt acc (lookupFrag frs s2)) ?_
      exact ih (slash + 1) (by omega) _ (by simp only [List.length_take]; omega) _

theorem fragInner_sub (frs : List (Str × rule)) (s2 : Str) (acc : Finset rule) :
    acc ⊆ fragInner frs s2 acc :=
  fragInner_superset frs s2.length s2 le_rfl acc

theorem fragWalk_superset (frs : List (Str × rule)) :
    ∀ (n : Nat) (s : Str), s.length ≤ n → ∀ (path : Str) (acc : Finset rule),
      acc ⊆ fragWalk frs s path acc := by
  intro n
  induction n using Nat.strong_induction_on with
  | _ n ih =>
    intro s hn path acc
    rw [fragWalk_eq]
    cases hdi : indexOfChar '.' s with
    | none =>
      exact Finset.Subset.trans (fragInner_sub frs (s ++ path) acc)
        (subset_insertOpt _ (lookupFrag frs s))
    | some dot =>
      have hlt := indexOfChar_lt_length '.' s dot hdi
      dsimp only
      refine Finset.Subset.trans (fragInner_sub frs (s ++ path) acc) ?_
      refine Finset.Subset.trans (subset_insertOpt _ (lookupFrag frs s)) ?_
      exact ih (s.length - (dot + 1)) (by omega) _
        (by simp only [List.length_drop]; exact le_rfl) path _

theorem fragWalk_sub (frs : List (Str × rule)) (s path : Str) (acc : Finset rule) :
    acc ⊆ fragWalk frs s path acc :=
  fragWalk_superset frs s.length s le_rfl path acc

theorem not_mem_of_indexOfChar_eq_none (c : Char) :
    ∀ (s : Str), indexOfChar c s = none → c ∉ s := by
  intro s
  induction s with
  | nil => intro _ h; cases h
  | cons x xs ih =>
    intro h hmem
    by_cases hx : x = c
    · rw [indexOfChar, if_pos hx] at h
      cases h
    · rw [indexOfChar, if_neg hx] at h
      rcases List.mem_cons.mp hmem with rfl | hmem'
      · exact hx rfl
      · cases hxs : indexOfChar c xs with
        | none => exact ih hxs hmem'
        | some j => rw [hxs] at h; cases h

theorem indexOfChar_spec (c : Char) : ∀ (s : Str) (i : Nat), indexOfChar c s = some i →
    ∃ a b, s = a ++ c :: b ∧ a.length = i ∧ c ∉ a ∧ s.drop (i + 1) = b := by
  intro s
  induction s with
  | nil => intro i h; cases h
  | cons x xs ih =>
    intro i h
    by_cases hx : x = c
    · rw [indexOfChar, if_pos hx] at h
      cases h
      subst hx
      exact ⟨[], xs, rfl, rfl, by simp, rfl⟩
    · rw [indexOfChar, if_neg hx] at h
      cases hxs : indexOfChar c xs with
      | none => rw [hxs] at h; cases h
      | some j =>
        rw [hxs] at h
        cases h
        obtain ⟨a, b, hs, hlen, hna, hdrop⟩ := ih j hxs
        refine ⟨x :: a, b, by rw [List.cons_append, ← hs], by simp [hlen], ?_, ?_⟩
        · intro hc
          rcases List.mem_cons.mp hc with hceq | hc'
          · exact hx hceq.symm
          · exact hna hc'
        · show (x :: xs).drop (j + 1 + 1) = b
          rw [List.drop_succ_cons]
          exact hdrop

theorem sep_split (c : Char) : ∀ (a pre b h1 : Str), a ++ c :: b = pre ++ c :: h1 → c ∉ a →
    b = h1 ∨ ∃ t, b = t ++ c :: h1 := by
  intro a
  induction a with
  | nil =>
    intro pre b h1 he hn
    cases pre with
    | nil =>
      simp only [List.nil_append] at he
      exact Or.inl (List.cons.inj he).2
    | cons y pre' =>
      simp only [List.nil_append, List.cons_append] at he
      exact Or.inr ⟨pre', (List.cons.inj he).2⟩
  | cons x a' ih =>
    intro pre b h1 he hn
    cases pre with
    | nil =>
      simp only [List.cons_append, List.nil_append] at he
      obtain ⟨h1e, _⟩ := List.cons.inj he
      subst h1e
      exact absurd (List.mem_cons_self x a') hn
    | cons y pre' =>
      simp only [List.cons_append] at he
      obtain ⟨_, h2e⟩ := List.cons.inj he
      exact ih pre' b h1 h2e (fun hc => hn (List.mem_cons_of_mem x hc))

theorem mem_fragInner_of_lookup (frs : List (Str × rule)) (s2 : Str) (acc : Finset rule)
    (r : rule) (h : lookupFrag frs s2 = some r) : r ∈ fragInner frs s2 acc := by
  rw [fragInner_eq]
  cases hli : lastIndexOf '/' (s2.take (s2.length - 1)) with
  | none =>
    dsimp only
    rw [h]
    exact Finset.mem_insert_self r acc
  | some slash =>
    dsimp only
    rw [h]
    exact fragInner_sub frs _ _ (Finset.mem_insert_self r acc)

theorem fragWalk_visits (frs : List (Str × rule)) (path h1 : Str) (r : rule)
    (hr : lookupFrag frs h1 = some r) :
    ∀ (n : Nat) (s : Str), s.length ≤ n →
      (s = h1 ∨ ∃ pre, s = pre ++ '.' :: h1) → ∀ (acc : Finset rule),
      r ∈ fragWalk frs s path acc := by
  intro n
  induction n using Nat.strong_induction_on with
  | _ n ih =>
    intro s hn hreach acc
    rw [fragWalk_eq]
    rcases hreach with rfl | ⟨pre, rfl⟩
    · cases hdi : indexOfChar '.' s with
      | none =>
        dsimp only
        rw [hr]
        exact Finset.mem_insert_self r _
      | some dot =>
        dsimp only
        rw [hr]
        exact fragWalk_sub frs _ path _ (Finset.mem_insert_self r _)
    · have hmem : '.' ∈ pre ++ '.' :: h1 := List.mem_append_right _ (List.mem_cons_self _ _)
      cases hdi : indexOfChar '.' (pre ++ '.' :: h1) with
      | none => exact absurd hmem (not_mem_of_indexOfChar_eq_none '.' _ hdi)
      | some i =>
        obtain ⟨a, b, hsab, hlen, hna, hdrop⟩ := indexOfChar_spec '.' _ i hdi
        dsimp only
        rw [hdrop]
        have hreach' : b = h1 ∨ ∃ t, b = t ++ '.' :: h1 :=
          sep_split '.' a pre b h1 hsab.symm hna
        have hblen : b.length < n := by
          have hlb := congrArg List.length hsab
          simp only [List.length_append, List.length_cons] at hlb hn
          omega
        exact ih b.length hblen b le_rfl hreach' _

theorem fragInner_mem_bound (frs : List (Str × rule)) :
    ∀ (n : Nat) (s2 : Str), s2.length ≤ n → ∀ (acc : Finset rule) (a : rule),
      a ∈ fragInner frs s2 acc →
      a ∈ acc ∨ ∃ k, lookupFrag frs k = some a ∧ k.length ≤ s2.length := by
  intro n
  induction n using Nat.strong_induction_on with
  | _ n ih =>
    intro s2 hn acc a ha
    rw [fragInner_eq] at ha
    cases hli : lastIndexOf '/' (s2.take (s2.length - 1)) with
    | none =>
      rw [hli] at ha
      dsimp only at ha
      rcases mem_insertOpt_elim a acc _ ha with h | hk
      · exact Or.inl h
      · exact Or.inr ⟨s2, hk, le_rfl⟩
    | some slash =>
      rw [hli] at ha
      dsimp only at ha
      have hlt := lastIndexOf_lt_length '/' _ slash hli
      simp only [List.length_take] at hlt
      rcases ih (slash + 1) (by omega) _ (by simp only [List.length_take]; omega) _ a ha
        with h | ⟨k, hk, hle⟩
      · rcases mem_insertOpt_elim a acc _ h with h' | hk'
        · exact Or.inl h'
        · exact Or.inr ⟨s2, hk', le_rfl⟩
      · refine Or.inr ⟨k, hk, ?_⟩
        simp only [List.length_take] at hle
        omega

theorem fragWalk_mem_bound (frs : List (Str × rule)) :
    ∀ (n : Nat) (s : Str), s.length ≤ n → ∀ (path : Str) (acc : Finset rule) (a : rule),
      a ∈ fragWalk frs s path acc →
      a ∈ acc ∨ ∃ k, lookupFrag frs k = some a ∧ k.length ≤ s.length + path.length := by
  intro n
  induction n using Nat.strong_induction_on with
  | _ n ih =>
    intro s hn path acc a ha
    rw [fragWalk_eq] at ha
    cases hdi : indexOfChar '.' s with
    | none =>
      rw [hdi] at ha
      dsimp only at ha
      rcases mem_insertOpt_elim a _ _ ha with h | hk
      · rcases fragInner_mem_bound frs (s ++ path).length _ le_rfl acc a h
          with h' | ⟨k, hk', hle⟩
        · exact Or.inl h'
        · exact Or.inr ⟨k, hk', by simpa [List.length_append] using hle⟩
      · exact Or.inr ⟨s, hk, by omega⟩
    | some dot =>
      rw [hdi] at ha
      dsimp only at ha
      have hlt := indexOfChar_lt_length '.' s dot hdi
      rcases ih (s.length - (dot + 1)) (by omega) _
          (by simp only [List.length_drop]; exact le_rfl) path _ a ha
        with h | ⟨k, hk, hle⟩
      · rcases mem_insertOpt_elim a _ _ h with h' | hk'
        · rcases fragInner_mem_bound frs (s ++ path).length _ le_rfl acc a h'
            with h'' | ⟨k, hk'', hle⟩
          · exact Or.inl h''
          · exact Or.inr ⟨k, hk'', by simpa [List.length_append] using hle⟩
        · exact Or.inr ⟨s, hk', by omega⟩
      · refine Or.inr ⟨k, hk, ?_⟩
        simp only [List.length_drop] at hle
        omega

theorem lookupFrag_singleton (k h2 : Str) (r r' : rule)
    (h : lookupFrag [(h2, r)] k = some r') : k = h2 ∧ r' = r := by
  by_cases hk : h2 = k
  · subst hk
    simp [lookupFrag] at h
    exact ⟨rfl, h.symm⟩
  · exfalso
    simp [lookupFrag, hk] at h

theorem findMatches_newRegexMap (s : Str) (t : Finset rule) :
    findMatches newRegexMap s t = t := by
  simp [findMatches, newRegexMap, bucket]

/-- Claim C9: for a fragment rule registered on host h1 and any host
formed by prepending one or more DNS labels (any prefix followed by a
dot) to h1, MatchingRules on that host with empty path includes the rule
in the tally; conversely a fragment rule registered on the longer host is
not included when matching h1.  The hypotheses state that the hosts are
already lower case, are left unchanged by port stripping, and contain no
xn-- (so the IDN branch is not taken). -/
theorem fragment_label_stripping (ext : Ext) (eng : RegexEngine) (m : URLMatcher)
    (scheme : Str) (r : rule) (h1 pre : Str) :
    (lookupFrag m.fragments h1 = some r →
     lowerStr (pre ++ '.' :: h1) = pre ++ '.' :: h1 →
     stripPort (pre ++ '.' :: h1) = pre ++ '.' :: h1 →
     containsSub "xn--".data (pre ++ '.' :: h1) = false →
     r ∈ MatchingRules ext m ⟨scheme, pre ++ '.' :: h1, [], []⟩) ∧
    (lowerStr h1 = h1 → stripPort h1 = h1 → containsSub "xn--".data h1 = false →
     (⟨.urlMatch, pre ++ '.' :: h1⟩ : rule) ∉
       MatchingRules ext (AddRule eng newURLMatcher ⟨.urlMatch, pre ++ '.' :: h1⟩)
         ⟨scheme, h1, [], []⟩) := by
  constructor
  · intro hr hlc hsp hxn
    simp only [MatchingRules, matchAfterStrip]
    rw [hlc, hsp, hxn]
    simp only [Bool.false_eq_true, if_false]
    rw [show lowerStr [] = [] from rfl]
    exact fragWalk_visits m.fragments [] h1 r hr (pre ++ '.' :: h1).length _ le_rfl
      (Or.inr ⟨pre, rfl⟩) _
  · intro hlc hsp hxn hmem
    have hm2 : AddRule eng newURLMatcher ⟨.urlMatch, pre ++ '.' :: h1⟩ =
        ⟨[(pre ++ '.' :: h1, ⟨.urlMatch, pre ++ '.' :: h1⟩)],
          newRegexMap, newRegexMap, newRegexMap, newRegexMap⟩ := rfl
    rw [hm2] at hmem
    simp only [MatchingRules, matchAfterStrip] at hmem
    rw [hlc, hsp, hxn] at hmem
    simp only [Bool.false_eq_true, if_false] at hmem
    rw [show lowerStr [] = [] from rfl] at hmem
    simp only [findMatches_newRegexMap] at hmem
    have hwalk : (⟨.urlMatch, pre ++ '.' :: h1⟩ : rule) ∈
        fragWalk [(pre ++ '.' :: h1, ⟨.urlMatch, pre ++ '.' :: h1⟩)] h1 [] ∅ := by
      by_cases hh : h1 ≠ []
      · simpa [hh, findMatches_newRegexMap] using hmem
      · simpa [hh, findMatches_newRegexMap] using hmem
    rcases fragWalk_mem_bound _ h1.length h1 le_rfl [] ∅ _ hwalk with h | ⟨k, hk, hle⟩
    · exact absurd h (Finset.not_mem_empty _)
    · obtain ⟨hkeq, _⟩ := lookupFrag_singleton k (pre ++ '.' :: h1) _ _ hk
      subst hkeq
      simp only [List.length_append, List.length_cons, List.length_nil] at hle
      omega

/-- Witness for fragment_label_stripping: the fragment bad.com matches
the host sub.bad.com, and the fragment sub.bad.com does not match the
host bad.com. -/
theorem fragment_label_stripping_witness :
    ((⟨.urlMatch, "bad.com".data⟩ : rule) ∈
      MatchingRules ⟨fun _ => none, fun _ => none⟩
        (AddRule ⟨fun _ => none, fun _ => none⟩ newURLMatcher ⟨.urlMatch, "bad.com".data⟩)
        ⟨"http".data, "sub".data ++ '.' :: "bad.com".data, [], []⟩) ∧
    ((⟨.urlMatch, "sub".data ++ '.' :: "bad.com".data⟩ : rule) ∉
      MatchingRules ⟨fun _ => none, fun _ => none⟩
        (AddRule ⟨fun _ => none, fun _ => none⟩ newURLMatcher
          ⟨.urlMatch, "sub".data ++ '.' :: "bad.com".data⟩)
        ⟨"http".data, "bad.com".data, [], []⟩) :=
  ⟨(fragment_label_stripping ⟨fun _ => none, fun _ => none⟩ ⟨fun _ => none, fun _ => none⟩
      (AddRule ⟨fun _ => none, fun _ => none⟩ newURLMatcher ⟨.urlMatch, "bad.com".data⟩)
      "http".data ⟨.urlMatch, "bad.com".data⟩ "bad.com".data "sub".data).1
        (by decide) (by decide) (by decide) (by decide),
   (fragment_label_stripping ⟨fun _ => none, fun _ => none⟩ ⟨fun _ => none, fun _ => none⟩
      newURLMatcher "http".data ⟨.urlMatch, "bad.com".data⟩ "bad.com".data "sub".data).2
        (by decide) (by decide) (by decide)⟩

end Redwood
